import Mathlib

/-!
A verification development for the tag policy evaluation engine and
digest-reflection state machine of the image-reflector-controller
repository.

The Go code is shallowly embedded: Go slices become `List`, Go `error`
results become `Except String`, `time.Time` values are represented by
their Unix seconds (an `Int`, which is exactly the resolution at which
the code compares creation times via `Created.Unix()`), and the in-place
sort performed by `Newest.Latest` is made explicit by returning the
final contents of the slice alongside the result.

Definitions embedded from files present in the repository source:
`Tag`, the `Newest` ordering policy (`NewNewest`, `Newest.Latest`), the
controller's `applyPolicy` pipeline and `composeImagePolicyReadyMessage`,
and the v1beta3 `ReflectionPolicy` / `ImageRef` API types.  Components
whose implementation files are not part of the provided sources (the
SemVer, Alphabetical and Numerical policies, the regex tag filter, the
policy selector and the digest-reflection controller logic) are modelled
from the specification; each such definition carries a doc comment
starting with `Modelled from the spec:`.
-/

/-- Unix seconds of the zero value of Go's `time.Time`
(January 1, year 1, 00:00:00 UTC): a tag lacking a creation time
carries this timestamp. -/
def timeZeroUnix : Int := -62135596800

/-- Embeds `policy.Tag`: a named, optionally timestamped image tag.
`created` is the Unix-seconds view of the Go `Created time.Time` field;
a tag without a known creation time has the zero timestamp. -/
structure Tag where
  name : String
  created : Int := timeZeroUnix
deriving Repr, DecidableEq

/-- Comparator for ascending creation-time order, embedding
`ByCreated.Less` (`x[i].Created.Unix() < x[j].Created.Unix()`) as the
weak ordering used by a sort. -/
def byCreatedLE (a b : Tag) : Bool := a.created ≤ b.created

/-- Comparator for descending creation-time order, embedding
`sort.Reverse(ByCreated(...))`. -/
def byCreatedGE (a b : Tag) : Bool := b.created ≤ a.created

/-- Embeds the constant `NewestOrderAsc = "ASC"`. -/
def NewestOrderAsc : String := "ASC"

/-- Embeds the constant `NewestOrderDesc = "DESC"`. -/
def NewestOrderDesc : String := "DESC"

/-- Embeds the `Newest` ordering policy struct. -/
structure Newest where
  order : String
deriving Repr, DecidableEq

/-- The error message produced by the order-validating constructors. -/
def invalidOrderMessage (order : String) : String :=
  "invalid order argument provided: '" ++ order ++ "', must be one of: ASC, DESC"

/-- Embeds `NewNewest`: validates the order argument, defaulting the
empty string to descending. -/
def NewNewest (order : String) : Except String Newest :=
  if order = "" then .ok { order := NewestOrderDesc }
  else if order = NewestOrderAsc ∨ order = NewestOrderDesc then .ok { order := order }
  else .error (invalidOrderMessage order)

/-- The sorted contents of the slice passed to `Newest.Latest`: the Go
code sorts the caller's slice in place with `sort.Sort` (ascending by
created time for `ASC`, reversed otherwise). -/
def Newest.sortSlice (p : Newest) (timestamp : List Tag) : List Tag :=
  if p.order = NewestOrderAsc then timestamp.mergeSort byCreatedLE
  else timestamp.mergeSort byCreatedGE

/-- Embeds `Newest.Latest`: fails on an empty list, otherwise sorts the
slice in place and returns element 0.  The in-place mutation is made
explicit by also returning the sorted slice contents; the empty case of
the match coincides with the Go `len(timestamp) == 0` check because
sorting permutes the slice. -/
def Newest.Latest (p : Newest) (timestamp : List Tag) : Except String (Tag × List Tag) :=
  match p.sortSlice timestamp with
  | [] => .error "timestamp list argument cannot be empty"
  | t :: rest => .ok (t, t :: rest)

/-- Generic strict-improvement selection: scans the list keeping the
accumulator unless `better` says the next element strictly improves on
it, so the first of several equal extremes is preferred. -/
def pickBy {α : Type} (better : α → α → Bool) : α → List α → α
  | acc, [] => acc
  | acc, x :: xs => pickBy better (if better x acc then x else acc) xs

/-- Modelled from the spec: constant order name of the Alphabetical
policy (implementation file not under the provided sources), matching
the shape of the Newest policy constants. -/
def AlphabeticalOrderAsc : String := "ASC"

/-- Modelled from the spec: descending order name of the Alphabetical
policy. -/
def AlphabeticalOrderDesc : String := "DESC"

/-- Modelled from the spec: the Alphabetical ordering policy struct
(implementation file not under the provided sources). -/
structure Alphabetical where
  order : String
deriving Repr, DecidableEq

/-- Modelled from the spec: `NewAlphabetical` validates the direction
(`asc` or `desc`, default `asc`) and fails with `InvalidOrder` for any
other value, the same construction-time validation shape as
`NewNewest`. -/
def NewAlphabetical (order : String) : Except String Alphabetical :=
  if order = "" then .ok { order := AlphabeticalOrderAsc }
  else if order = AlphabeticalOrderAsc ∨ order = AlphabeticalOrderDesc then .ok { order := order }
  else .error (invalidOrderMessage order)

/-- Modelled from the spec: `Alphabetical.Latest` fails on an empty
list; ascending picks the lexicographically greatest name, descending
the least. -/
def Alphabetical.Latest (p : Alphabetical) (versions : List Tag) : Except String Tag :=
  match versions with
  | [] => .error "version list argument cannot be empty"
  | t :: ts =>
      .ok (pickBy (fun x acc =>
        if p.order = AlphabeticalOrderDesc then decide (x.name < acc.name)
        else decide (acc.name < x.name)) t ts)

/-- An exact decimal number `mant * 10 ^ exp10`, the embedding of the
floating-point value a tag name parses to (Go `strconv.ParseFloat`);
exact decimals keep the comparison kernel-computable. -/
structure DecNum where
  mant : Int
  exp10 : Int
deriving Repr, DecidableEq

/-- Strict comparison of two decimal numbers by scaling to the smaller
exponent. -/
def DecNum.lt (a b : DecNum) : Bool :=
  if a.exp10 ≤ b.exp10 then a.mant < b.mant * (10 : Int) ^ (b.exp10 - a.exp10).toNat
  else a.mant * (10 : Int) ^ (a.exp10 - b.exp10).toNat < b.mant

/-- Numeric value of a digit list (least significant last). -/
def digitsToNat (cs : List Char) : Nat :=
  cs.foldl (fun n c => n * 10 + (c.toNat - 48)) 0

/-- `true` when the list is a non-empty run of decimal digits. -/
def isDigits (cs : List Char) : Bool :=
  !cs.isEmpty && cs.all Char.isDigit

/-- Consumes an optional leading sign, returning whether it was `-`. -/
def parseSign : List Char → Bool × List Char
  | '-' :: rest => (true, rest)
  | '+' :: rest => (false, rest)
  | cs => (false, cs)

/-- Modelled from the spec: parse a tag name as a floating-point number
(the Numerical policy's use of `strconv.ParseFloat`; implementation file
not under the provided sources).  Accepts an optional sign, a digit
string with optional fractional part (at least one digit overall) and an
optional signed decimal exponent; anything else fails. -/
def parseNumber (s : String) : Option DecNum :=
  let (neg, cs1) := parseSign s.data
  let (ip, cs2) := cs1.span Char.isDigit
  let (fp, cs3) :=
    match cs2 with
    | '.' :: rest => rest.span Char.isDigit
    | _ => ([], cs2)
  if (ip ++ fp).isEmpty then none
  else
    let mant0 : Int := (digitsToNat (ip ++ fp) : Nat)
    let mant := if neg then -mant0 else mant0
    match cs3 with
    | [] => some { mant := mant, exp10 := -(fp.length : Int) }
    | e :: rest =>
      if e = 'e' ∨ e = 'E' then
        let (eneg, r1) := parseSign rest
        let (ed, r2) := r1.span Char.isDigit
        if ed.isEmpty || !r2.isEmpty then none
        else
          let ev : Int := (digitsToNat ed : Nat)
          some { mant := mant, exp10 := (if eneg then -ev else ev) - (fp.length : Int) }
      else none

/-- Modelled from the spec: ascending order name of the Numerical
policy. -/
def NumericalOrderAsc : String := "ASC"

/-- Modelled from the spec: descending order name of the Numerical
policy. -/
def NumericalOrderDesc : String := "DESC"

/-- Modelled from the spec: the Numerical ordering policy struct
(implementation file not under the provided sources). -/
structure Numerical where
  order : String
deriving Repr, DecidableEq

/-- Modelled from the spec: `NewNumerical`, the same construction-time
validation as `NewAlphabetical` (default `asc`). -/
def NewNumerical (order : String) : Except String Numerical :=
  if order = "" then .ok { order := NumericalOrderAsc }
  else if order = NumericalOrderAsc ∨ order = NumericalOrderDesc then .ok { order := order }
  else .error (invalidOrderMessage order)

/-- Parses every tag name as a number, pairing each tag with its value;
`none` as soon as any tag fails to parse. -/
def parsePairs : List Tag → Option (List (Tag × DecNum))
  | [] => some []
  | t :: ts =>
    match parseNumber t.name, parsePairs ts with
    | some v, some rest => some ((t, v) :: rest)
    | _, _ => none

/-- Modelled from the spec: `Numerical.Latest` fails on an empty list;
if any tag name fails to parse as a number the whole evaluation fails
with `InvalidNumericValue` (no tag is skipped); otherwise ascending
picks the maximum value and descending the minimum. -/
def Numerical.Latest (p : Numerical) (versions : List Tag) : Except String Tag :=
  match versions with
  | [] => .error "version list argument cannot be empty"
  | _ =>
    match parsePairs versions with
    | none => .error "invalid numerical value"
    | some [] => .error "version list argument cannot be empty"
    | some (q :: qs) =>
      .ok (pickBy (fun x acc =>
        if p.order = NumericalOrderDesc then DecNum.lt x.2 acc.2
        else DecNum.lt acc.2 x.2) q qs).1

/-- A parsed semantic version (three numeric components). -/
structure Version where
  major : Nat
  minor : Nat
  patch : Nat
deriving Repr, DecidableEq

/-- Strict semantic-version precedence on numeric components. -/
def verLT (a b : Version) : Bool :=
  a.major < b.major ||
  (a.major = b.major && (a.minor < b.minor ||
    (a.minor = b.minor && a.patch < b.patch)))

/-- Splits a character list on a separator character. -/
def splitOnChar (sep : Char) : List Char → List (List Char)
  | [] => [[]]
  | c :: rest =>
    let r := splitOnChar sep rest
    if c = sep then [] :: r
    else
      match r with
      | [] => [[c]]
      | g :: gs => (c :: g) :: gs

/-- Drops one leading `v`, the prefix-normalization of the SemVer
policy: either side of the comparison may use or omit a leading `v`. -/
def stripV : List Char → List Char
  | 'v' :: rest => rest
  | cs => cs

/-- Modelled from the spec: parse a tag name as a semantic version,
tolerating a leading `v`.  Modelled for plain three-component numeric
versions, which is the shape this development evaluates. -/
def parseVersion (s : String) : Option Version :=
  match splitOnChar '.' (stripV s.data) with
  | [a, b, c] =>
    if isDigits a && isDigits b && isDigits c then
      some { major := digitsToNat a, minor := digitsToNat b, patch := digitsToNat c }
    else none
  | _ => none

/-- A parsed SemVer range of the wildcard-patch form
`major.minor.x`: satisfied exactly by versions with that major and
minor. -/
structure SemVerRange where
  major : Nat
  minor : Nat
deriving Repr, DecidableEq

/-- Modelled from the spec: parse a range expression of the form
`major.minor.x`, tolerating a leading `v`; any other expression fails
(`InvalidRange`). -/
def parseRange (s : String) : Option SemVerRange :=
  match splitOnChar '.' (stripV s.data) with
  | [a, b, ['x']] =>
    if isDigits a && isDigits b then
      some { major := digitsToNat a, minor := digitsToNat b }
    else none
  | _ => none

/-- Does a version satisfy a wildcard-patch range? -/
def rangeMatches (rng : SemVerRange) (w : Version) : Bool :=
  w.major = rng.major && w.minor = rng.minor

/-- Modelled from the spec: the SemVer ordering policy struct, holding
the parsed range (implementation file not under the provided
sources). -/
structure SemVer where
  rng : SemVerRange
deriving Repr, DecidableEq

/-- Modelled from the spec: `NewSemVer` fails at construction when the
range expression cannot be parsed. -/
def NewSemVer (rangeStr : String) : Except String SemVer :=
  match parseRange rangeStr with
  | none => .error ("semver range parse error: '" ++ rangeStr ++ "'")
  | some rng => .ok { rng := rng }

/-- Scans the tag list keeping the best parsed version satisfying the
range; a candidate replaces the current best only when strictly greater,
so the first of equal versions is preferred.  Tags that fail to parse
are silently skipped. -/
def scanBest (rng : SemVerRange) (acc : Option (Tag × Version)) : List Tag → Option (Tag × Version)
  | [] => acc
  | t :: ts =>
    let acc2 :=
      match parseVersion t.name with
      | some w =>
        if rangeMatches rng w then
          match acc with
          | none => some (t, w)
          | some (u, bw) => if verLT bw w then some (t, w) else some (u, bw)
        else acc
      | none => acc
    scanBest rng acc2 ts

/-- Modelled from the spec: `SemVer.Latest` fails on an empty list;
among tags that parse as versions and satisfy the range, the highest
version wins; if none do, it fails with `NoMatchingVersion`. -/
def SemVer.Latest (p : SemVer) (versions : List Tag) : Except String Tag :=
  if versions.isEmpty then .error "version list argument cannot be empty"
  else
    match scanBest p.rng none versions with
    | some (t, _) => .ok t
    | none => .error "unable to determine latest version from provided list"

/-- Constructs a SemVer policy from a range and evaluates it, the way
the construction and evaluation compose in the tests. -/
def semverLatest (rangeStr : String) (ts : List Tag) : Except String Tag :=
  match NewSemVer rangeStr with
  | .error e => .error e
  | .ok p => p.Latest ts

/-- Modelled from the spec: the result of compiling a tag filter's
regular expression.  The Go regexp engine is abstracted into the two
capabilities the filter uses: a match predicate on tag names and the
expansion of the extract template against a name's capture groups. -/
structure CompiledRegex where
  isMatch : String → Bool
  expandTo : String → String

/-- Modelled from the spec: the regex tag filter (implementation file
not under the provided sources).  `filtered` is the view from extracted
names to the original tags, a map with last-write-wins on extraction
collisions. -/
structure RegexFilter where
  regex : CompiledRegex
  replacement : String
  filtered : List (String × Tag)

/-- Modelled from the spec: `NewRegexFilter` fails with `InvalidPattern`
when the pattern does not compile (compilation itself is abstracted as
the optional `CompiledRegex` argument). -/
def NewRegexFilter (compiled : Option CompiledRegex) (extract : String) : Except String RegexFilter :=
  match compiled with
  | none => .error "invalid regular expression pattern"
  | some c => .ok { regex := c, replacement := extract, filtered := [] }

/-- Is a key present in the association list? -/
def keyMem (k : String) : List (String × Tag) → Bool
  | [] => false
  | kv :: rest => k = kv.1 || keyMem k rest

/-- Keeps only the last entry for each key, the map semantics of the Go
`filtered` field (last write wins). -/
def collapseLast : List (String × Tag) → List (String × Tag)
  | [] => []
  | kv :: rest => if keyMem kv.1 rest then collapseLast rest else kv :: collapseLast rest

/-- The evaluation name of a matching tag: the original name when the
extract template is empty, otherwise the expansion of the template. -/
def RegexFilter.extractedName (f : RegexFilter) (name : String) : String :=
  if f.replacement = "" then name else f.regex.expandTo name

/-- Modelled from the spec: `RegexFilter.Apply` builds the view: every
tag whose name matches the pattern is recorded under its extracted name
(last write wins on collisions); non-matching tags are dropped. -/
def RegexFilter.Apply (f : RegexFilter) (list : List Tag) : RegexFilter :=
  { f with filtered := collapseLast (list.filterMap (fun t =>
      if f.regex.isMatch t.name then some (f.extractedName t.name, t) else none)) }

/-- Modelled from the spec: `RegexFilter.Items`, the extracted tags of
the view (extracted name, original creation time). -/
def RegexFilter.Items (f : RegexFilter) : List Tag :=
  f.filtered.map (fun kv => { name := kv.1, created := kv.2.created })

/-- First entry of the association list with the given key. -/
def findTag : List (String × Tag) → String → Option Tag
  | [], _ => none
  | kv :: rest, key => if kv.1 = key then some kv.2 else findTag rest key

/-- Modelled from the spec: `RegexFilter.GetOriginalTag`, the reverse
lookup from a winning extracted tag to the original tag (the Go map
yields the zero `Tag` for a missing key). -/
def RegexFilter.GetOriginalTag (f : RegexFilter) (t : Tag) : Tag :=
  match findTag f.filtered t.name with
  | some v => v
  | none => { name := "" }

/-- The closed set of ordering policies behind the `Policer`
capability. -/
inductive Policer where
  | semverP : SemVer → Policer
  | alphaP : Alphabetical → Policer
  | numP : Numerical → Policer
  | newestP : Newest → Policer

/-- Dispatches `Latest` to the chosen ordering policy (the result of
`Newest.Latest` also carries the sorted slice, dropped here). -/
def Policer.Latest : Policer → List Tag → Except String Tag
  | .semverP p, ts => p.Latest ts
  | .alphaP p, ts => p.Latest ts
  | .numP p, ts => p.Latest ts
  | .newestP p, ts => (p.Latest ts).map Prod.fst

/-- Embeds `ImagePolicyChoice`: a union of the four policy arms, each
carrying its configuration string (range or order). -/
structure ImagePolicyChoice where
  semver : Option String := none
  alphabetical : Option String := none
  numerical : Option String := none
  newest : Option String := none

/-- Modelled from the spec: `PolicerFromSpec` (implementation file not
under the provided sources): exactly one populated arm is required, zero
or multiple populated arms fail with `InvalidPolicy`, and construction
errors of the chosen policy propagate. -/
def PolicerFromSpec (choice : ImagePolicyChoice) : Except String Policer :=
  match choice.semver, choice.alphabetical, choice.numerical, choice.newest with
  | some r, none, none, none => (NewSemVer r).map Policer.semverP
  | none, some o, none, none => (NewAlphabetical o).map Policer.alphaP
  | none, none, some o, none => (NewNumerical o).map Policer.numP
  | none, none, none, some o => (NewNewest o).map Policer.newestP
  | _, _, _, _ => .error "given image policy choice is invalid"

/-- Embeds the controller's `applyPolicy`: builds the policer from the
choice (an invalid policy aborts first), then checks the tag list read
from the database for emptiness, then applies the optional tag filter
and the policer, mapping a filtered winner back to its original tag.
The database read itself is abstracted into the `tags` argument; a
configured filter is the pair of its pattern's compilation outcome and
its extract template. -/
def applyPolicy (choice : ImagePolicyChoice)
    (filterTags : Option (Option CompiledRegex × String)) (tags : List Tag) :
    Except String Tag :=
  match PolicerFromSpec choice with
  | .error e => .error ("invalid policy: " ++ e)
  | .ok policer =>
    if tags.length = 0 then .error "no tags in database"
    else
      match filterTags with
      | some (compiled, extract) =>
        match NewRegexFilter compiled extract with
        | .error e => .error ("failed to filter tags: " ++ e)
        | .ok filter0 =>
          let f := filter0.Apply tags
          match Policer.Latest policer f.Items with
          | .error e => .error e
          | .ok latest => .ok (f.GetOriginalTag latest)
      | none => Policer.Latest policer tags

/-- Embeds `composeImagePolicyReadyMessage`. -/
def composeImagePolicyReadyMessage (previousTag latestTag image : String) : String :=
  let readyMsg := "Latest image tag for '" ++ image ++ "' resolved to " ++ latestTag
  if previousTag ≠ "" ∧ previousTag ≠ latestTag then
    "Latest image tag for '" ++ image ++ "' updated from " ++ previousTag ++ " to " ++ latestTag
  else readyMsg

/-- Embeds the v1beta3 `ReflectionPolicy` enum. -/
inductive ReflectionPolicy where
  | Always
  | IfNotPresent
  | Never
deriving Repr, DecidableEq

/-- Embeds the v1beta3 `ImageRef`: the persisted resolved reference. -/
structure ImageRef where
  name : String
  tag : String
  digest : String := ""
deriving Repr, DecidableEq

/-- Modelled from the spec: the digest reflection state machine
(controller logic not under the provided sources).  Whenever the
`(name, tag)` pair of the newly resolved reference differs from the
previous one, the digest is reset to empty before the mode is applied;
then `Never` clears, `Always` re-fetches unconditionally, and
`IfNotPresent` fetches exactly when the (possibly reset) digest is
empty.  The digest fetch is an injected, possibly-failing collaborator
call, abstracted as an `Except` value. -/
def advanceRef (name tag : String) (previous : ImageRef) (mode : ReflectionPolicy)
    (fetch : Except String String) : Except String ImageRef :=
  let base : ImageRef :=
    if name = previous.name ∧ tag = previous.tag then previous
    else { name := name, tag := tag, digest := "" }
  match mode with
  | .Never => .ok { name := name, tag := tag, digest := "" }
  | .Always => fetch.map fun d => { name := name, tag := tag, digest := d }
  | .IfNotPresent =>
    if base.digest = "" then fetch.map fun d => { name := name, tag := tag, digest := d }
    else .ok base

/-- The tag set of the SemVer example, unprefixed. -/
def semverTagsPlain : List Tag :=
  [{ name := "1.0.0" }, { name := "2.0.0" }, { name := "1.0.1" }, { name := "1.2.0" }]

/-- The tag set of the SemVer example, every name with a `v` prefix. -/
def semverTagsV : List Tag :=
  [{ name := "v1.0.0" }, { name := "v2.0.0" }, { name := "v1.0.1" }, { name := "v1.2.0" }]

/-- The concrete compiled pattern of the filter round-trip example
`ver(\d+)` with extract `$1`: matches names that are `ver` followed by
digits, and expands to those digits. -/
def verPattern : CompiledRegex where
  isMatch := fun s => decide (s.data.take 3 = ['v', 'e', 'r']) && isDigits (s.data.drop 3)
  expandTo := fun s => String.mk (s.data.drop 3)

/-- The tag set of the filter round-trip example. -/
def verTags : List Tag :=
  [{ name := "ver1" }, { name := "ver2" }, { name := "ver3" }, { name := "rel1" }]

/-- A policy choice selecting the Numerical policy with default
order. -/
def verChoice : ImagePolicyChoice := { numerical := some "" }

/-- Decidable equality of `Except` results, for evaluating the
embedding on concrete inputs. -/
instance {ε α : Type} [DecidableEq ε] [DecidableEq α] : DecidableEq (Except ε α) := fun a b =>
  match a, b with
  | .ok x, .ok y =>
    if h : x = y then .isTrue (by rw [h]) else .isFalse (by intro hc; cases hc; exact h rfl)
  | .error x, .error y =>
    if h : x = y then .isTrue (by rw [h]) else .isFalse (by intro hc; cases hc; exact h rfl)
  | .ok _, .error _ => .isFalse (by intro hc; cases hc)
  | .error _, .ok _ => .isFalse (by intro hc; cases hc)

theorem byCreatedLE_trans : ∀ a b c : Tag,
    byCreatedLE a b = true → byCreatedLE b c = true → byCreatedLE a c = true := by
  intro a b c
  simp only [byCreatedLE, decide_eq_true_eq]
  omega

theorem byCreatedLE_total : ∀ a b : Tag, (byCreatedLE a b || byCreatedLE b a) = true := by
  intro a b
  simp only [byCreatedLE, Bool.or_eq_true, decide_eq_true_eq]
  omega

theorem byCreatedGE_trans : ∀ a b c : Tag,
    byCreatedGE a b = true → byCreatedGE b c = true → byCreatedGE a c = true := by
  intro a b c
  simp only [byCreatedGE, decide_eq_true_eq]
  omega

theorem byCreatedGE_total : ∀ a b : Tag, (byCreatedGE a b || byCreatedGE b a) = true := by
  intro a b
  simp only [byCreatedGE, Bool.or_eq_true, decide_eq_true_eq]
  omega

theorem sortSlice_perm (p : Newest) (ts : List Tag) : (p.sortSlice ts).Perm ts := by
  unfold Newest.sortSlice
  split
  · exact List.mergeSort_perm ts byCreatedLE
  · exact List.mergeSort_perm ts byCreatedGE

theorem sortSlice_sorted_asc (p : Newest) (ts : List Tag) (h : p.order = NewestOrderAsc) :
    List.Pairwise (fun a b : Tag => a.created ≤ b.created) (p.sortSlice ts) := by
  unfold Newest.sortSlice
  rw [if_pos h]
  refine (@List.sorted_mergeSort Tag byCreatedLE byCreatedLE_trans byCreatedLE_total ts).imp ?_
  intro a b hab
  simpa [byCreatedLE] using hab

theorem sortSlice_sorted_desc (p : Newest) (ts : List Tag) (h : ¬p.order = NewestOrderAsc) :
    List.Pairwise (fun a b : Tag => b.created ≤ a.created) (p.sortSlice ts) := by
  unfold Newest.sortSlice
  rw [if_neg h]
  refine (@List.sorted_mergeSort Tag byCreatedGE byCreatedGE_trans byCreatedGE_total ts).imp ?_
  intro a b hab
  simpa [byCreatedGE] using hab

theorem newest_latest_ok (p : Newest) (ts : List Tag) (t : Tag) (s : List Tag)
    (h : p.Latest ts = .ok (t, s)) : s = p.sortSlice ts ∧ ∃ rest, s = t :: rest := by
  unfold Newest.Latest at h
  cases hs : p.sortSlice ts with
  | nil => rw [hs] at h; exact absurd h (by simp)
  | cons t0 rest =>
    rw [hs] at h
    simp only [Except.ok.injEq, Prod.mk.injEq] at h
    obtain ⟨ht, hlist⟩ := h
    subst ht
    exact ⟨hlist.symm, rest, hlist.symm⟩

theorem pickBy_mem {α : Type} (better : α → α → Bool) (acc : α) (xs : List α) :
    pickBy better acc xs = acc ∨ pickBy better acc xs ∈ xs := by
  induction xs generalizing acc with
  | nil => left; rfl
  | cons x xs ih =>
    simp only [pickBy]
    rcases ih (if better x acc then x else acc) with h | h
    · rw [h]
      split
      · right; exact List.mem_cons_self x xs
      · left; rfl
    · right; exact List.mem_cons_of_mem x h

theorem scanBest_mem (rng : SemVerRange) (acc : Option (Tag × Version)) (ts : List Tag)
    (t : Tag) (w : Version) (h : scanBest rng acc ts = some (t, w)) :
    (∃ w0, acc = some (t, w0)) ∨ t ∈ ts := by
  induction ts generalizing acc w with
  | nil =>
    simp only [scanBest] at h
    exact Or.inl ⟨w, h⟩
  | cons x xs ih =>
    simp only [scanBest] at h
    rcases ih _ _ h with ⟨w0, hacc⟩ | hmem
    · -- the accumulator after the head step is `some (t, w0)`
      cases hv : parseVersion x.name with
      | none => simp only [hv] at hacc; exact Or.inl ⟨w0, hacc⟩
      | some v =>
        simp only [hv] at hacc
        split at hacc
        · cases acc with
          | none =>
            simp only [Option.some.injEq, Prod.mk.injEq] at hacc
            exact Or.inr (hacc.1 ▸ List.mem_cons_self x xs)
          | some q =>
            obtain ⟨u, bw⟩ := q
            simp only at hacc
            split at hacc
            · simp only [Option.some.injEq, Prod.mk.injEq] at hacc
              exact Or.inr (hacc.1 ▸ List.mem_cons_self x xs)
            · simp only [Option.some.injEq, Prod.mk.injEq] at hacc
              exact Or.inl ⟨bw, by rw [hacc.1]⟩
        · exact Or.inl ⟨w0, hacc⟩
    · exact Or.inr (List.mem_cons_of_mem x hmem)

theorem parsePairs_none_of_mem (ts : List Tag) (t : Tag) (hm : t ∈ ts)
    (hp : parseNumber t.name = none) : parsePairs ts = none := by
  induction ts with
  | nil => cases hm
  | cons x xs ih =>
    rcases List.mem_cons.mp hm with h | h
    · subst h
      simp only [parsePairs, hp]
    · simp only [parsePairs, ih h]
      cases parseNumber x.name <;> rfl

theorem parsePairs_fst_mem (ts : List Tag) (ps : List (Tag × DecNum)) (t : Tag) (v : DecNum)
    (hp : parsePairs ts = some ps) (hm : (t, v) ∈ ps) : t ∈ ts := by
  induction ts generalizing ps with
  | nil =>
    simp only [parsePairs, Option.some.injEq] at hp
    subst hp
    cases hm
  | cons x xs ih =>
    simp only [parsePairs] at hp
    cases hx : parseNumber x.name with
    | none => rw [hx] at hp; cases hp
    | some w =>
      rw [hx] at hp
      cases hrest : parsePairs xs with
      | none => rw [hrest] at hp; cases hp
      | some rest =>
        rw [hrest] at hp
        simp only [Option.some.injEq] at hp
        subst hp
        rcases List.mem_cons.mp hm with h | h
        · exact List.mem_cons.mpr (Or.inl (congrArg Prod.fst h))
        · exact List.mem_cons_of_mem x (ih rest hrest h)

theorem mem_collapseLast (l : List (String × Tag)) (kv : String × Tag)
    (h : kv ∈ collapseLast l) : kv ∈ l := by
  induction l with
  | nil => cases h
  | cons x xs ih =>
    simp only [collapseLast] at h
    split at h
    · exact List.mem_cons_of_mem x (ih h)
    · rcases List.mem_cons.mp h with h | h
      · exact List.mem_cons.mpr (Or.inl h)
      · exact List.mem_cons_of_mem x (ih h)

theorem findTag_mem (m : List (String × Tag)) (key : String) (v : Tag)
    (h : findTag m key = some v) : (key, v) ∈ m := by
  induction m with
  | nil => cases h
  | cons kv rest ih =>
    simp only [findTag] at h
    split at h
    · rename_i hk
      simp only [Option.some.injEq] at h
      subst h
      subst hk
      exact List.mem_cons.mpr (Or.inl rfl)
    · exact List.mem_cons_of_mem kv (ih h)

theorem findTag_isSome (m : List (String × Tag)) (key : String)
    (h : ∃ kv ∈ m, kv.1 = key) : ∃ v, findTag m key = some v := by
  induction m with
  | nil =>
    obtain ⟨kv, hm, _⟩ := h
    cases hm
  | cons x xs ih =>
    simp only [findTag]
    by_cases hx : x.1 = key
    · exact ⟨x.2, by rw [if_pos hx]⟩
    · rw [if_neg hx]
      obtain ⟨kv, hm, hk⟩ := h
      rcases List.mem_cons.mp hm with hh | hh
      · exact absurd (hh ▸ hk) hx
      · exact ih ⟨kv, hh, hk⟩

theorem apply_filtered_mem (f : RegexFilter) (tags : List Tag) (kv : String × Tag)
    (h : kv ∈ (f.Apply tags).filtered) : kv.2 ∈ tags ∧ f.regex.isMatch kv.2.name = true := by
  simp only [RegexFilter.Apply] at h
  have h2 := mem_collapseLast _ _ h
  rw [List.mem_filterMap] at h2
  obtain ⟨a, ha, hfa⟩ := h2
  by_cases hm : f.regex.isMatch a.name = true
  · rw [if_pos hm] at hfa
    simp only [Option.some.injEq] at hfa
    subst hfa
    exact ⟨ha, hm⟩
  · rw [if_neg hm] at hfa
    cases hfa

theorem items_key (f : RegexFilter) (t : Tag) (h : t ∈ f.Items) :
    ∃ kv ∈ f.filtered, kv.1 = t.name := by
  simp only [RegexFilter.Items, List.mem_map] at h
  obtain ⟨kv, hm, hk⟩ := h
  exact ⟨kv, hm, by rw [← hk]⟩

theorem semver_latest_mem (p : SemVer) (ts : List Tag) (t : Tag)
    (h : p.Latest ts = .ok t) : t ∈ ts := by
  unfold SemVer.Latest at h
  split at h
  · cases h
  · cases hs : scanBest p.rng none ts with
    | none => rw [hs] at h; cases h
    | some q =>
      obtain ⟨u, w⟩ := q
      rw [hs] at h
      simp only [Except.ok.injEq] at h
      subst h
      rcases scanBest_mem p.rng none ts u w hs with ⟨w0, hacc⟩ | hmem
      · cases hacc
      · exact hmem

theorem alphabetical_latest_mem (p : Alphabetical) (ts : List Tag) (t : Tag)
    (h : p.Latest ts = .ok t) : t ∈ ts := by
  unfold Alphabetical.Latest at h
  cases ts with
  | nil => cases h
  | cons x xs =>
    simp only [Except.ok.injEq] at h
    subst h
    have hk := pickBy_mem (fun a acc =>
        if p.order = AlphabeticalOrderDesc then decide (a.name < acc.name)
        else decide (acc.name < a.name)) x xs
    rcases hk with hh | hh
    · rw [hh]; exact List.mem_cons_self x xs
    · exact List.mem_cons_of_mem x hh

theorem numerical_latest_mem (p : Numerical) (ts : List Tag) (t : Tag)
    (h : p.Latest ts = .ok t) : t ∈ ts := by
  unfold Numerical.Latest at h
  cases ts with
  | nil => cases h
  | cons x xs =>
    simp only at h
    cases hp : parsePairs (x :: xs) with
    | none => rw [hp] at h; cases h
    | some ps =>
      rw [hp] at h
      cases ps with
      | nil => cases h
      | cons q qs =>
        simp only [Except.ok.injEq] at h
        have hm : pickBy (fun a acc =>
            if p.order = NumericalOrderDesc then DecNum.lt a.2 acc.2
            else DecNum.lt acc.2 a.2) q qs ∈ q :: qs := by
          have hk := pickBy_mem (fun a acc =>
              if p.order = NumericalOrderDesc then DecNum.lt a.2 acc.2
              else DecNum.lt acc.2 a.2) q qs
          rcases hk with hh | hh
          · rw [hh]; exact List.mem_cons_self q qs
          · exact List.mem_cons_of_mem q hh
        have hfst := parsePairs_fst_mem (x :: xs) (q :: qs) _ _ hp (by rw [Prod.mk.eta]; exact hm)
        rw [h] at hfst
        exact hfst

theorem newest_latest_fst_mem (p : Newest) (ts : List Tag) (t : Tag)
    (h : (p.Latest ts).map Prod.fst = .ok t) : t ∈ ts := by
  cases hl : p.Latest ts with
  | error e => rw [hl] at h; cases h
  | ok pr =>
    obtain ⟨t0, s⟩ := pr
    rw [hl] at h
    simp only [Except.map, Except.ok.injEq] at h
    subst h
    obtain ⟨hs, rest, hrest⟩ := newest_latest_ok p ts t0 s hl
    have : t0 ∈ p.sortSlice ts := by
      rw [← hs, hrest]
      exact List.mem_cons_self t0 rest
    exact (sortSlice_perm p ts).mem_iff.mp this

theorem policer_latest_mem (po : Policer) (ts : List Tag) (t : Tag)
    (h : Policer.Latest po ts = .ok t) : t ∈ ts := by
  cases po with
  | semverP p => exact semver_latest_mem p ts t h
  | alphaP p => exact alphabetical_latest_mem p ts t h
  | numP p => exact numerical_latest_mem p ts t h
  | newestP p => exact newest_latest_fst_mem p ts t h

theorem getOriginal_spec (f : RegexFilter) (tags : List Tag) (latest : Tag)
    (h : latest ∈ (f.Apply tags).Items) :
    (f.Apply tags).GetOriginalTag latest ∈ tags ∧
    f.regex.isMatch ((f.Apply tags).GetOriginalTag latest).name = true := by
  obtain ⟨kv, hkvm, hkey⟩ := items_key _ _ h
  obtain ⟨v, hv⟩ := findTag_isSome (f.Apply tags).filtered latest.name ⟨kv, hkvm, hkey⟩
  have hmem := findTag_mem _ _ _ hv
  have hprop := apply_filtered_mem f tags (latest.name, v) hmem
  unfold RegexFilter.GetOriginalTag
  simp only [hv]
  exact hprop

/-- C7: for every non-empty tag list, the Newest policy with direction
desc (the default when the order is unspecified) returns a tag whose
created timestamp (Unix seconds) is greatest among the input, and with
direction asc one whose created timestamp is smallest; the returned tag
is an element of the input. -/
theorem newest_latest_picks_extreme (p : Newest) (ts : List Tag) (t : Tag) (s : List Tag)
    (h : p.Latest ts = .ok (t, s)) :
    t ∈ ts
    ∧ (p.order ≠ NewestOrderAsc → ∀ u ∈ ts, u.created ≤ t.created)
    ∧ (p.order = NewestOrderAsc → ∀ u ∈ ts, t.created ≤ u.created)
    ∧ NewNewest "" = .ok { order := NewestOrderDesc } := by
  obtain ⟨hs, rest, hrest⟩ := newest_latest_ok p ts t s h
  have hsort : p.sortSlice ts = t :: rest := by rw [← hs, hrest]
  have hperm := sortSlice_perm p ts
  have htmem : t ∈ ts := hperm.mem_iff.mp (hsort ▸ List.mem_cons_self t rest)
  refine ⟨htmem, ?_, ?_, by decide⟩
  · intro hdesc u hu
    have hu2 : u ∈ t :: rest := hsort ▸ hperm.mem_iff.mpr hu
    rcases List.mem_cons.mp hu2 with he | he
    · rw [he]
    · have hpw := sortSlice_sorted_desc p ts hdesc
      rw [hsort] at hpw
      exact (List.pairwise_cons.mp hpw).1 u he
  · intro hasc u hu
    have hu2 : u ∈ t :: rest := hsort ▸ hperm.mem_iff.mpr hu
    rcases List.mem_cons.mp hu2 with he | he
    · rw [he]
    · have hpw := sortSlice_sorted_asc p ts hasc
      rw [hsort] at hpw
      exact (List.pairwise_cons.mp hpw).1 u he

/-- Witness for C7 at a concrete two-tag list under the default
descending direction. -/
theorem newest_latest_picks_extreme_witness :
    ({ name := "b", created := 2 } : Tag) ∈
      [({ name := "a", created := 1 } : Tag), { name := "b", created := 2 }] ∧
    (∀ u ∈ [({ name := "a", created := 1 } : Tag), { name := "b", created := 2 }],
      u.created ≤ (2 : Int)) :=
  have h : Newest.Latest { order := NewestOrderDesc }
      [{ name := "a", created := 1 }, { name := "b", created := 2 }] =
      .ok ({ name := "b", created := 2 },
        [{ name := "b", created := 2 }, { name := "a", created := 1 }]) := by
    simp [Newest.Latest, Newest.sortSlice, NewestOrderAsc, NewestOrderDesc,
      List.mergeSort, byCreatedGE]
  have hx := newest_latest_picks_extreme _ _ _ _ h
  ⟨hx.1, hx.2.1 (by decide)⟩

/-- C8: constructing the Newest policy succeeds for the asc and desc
direction constants and for the empty string (defaulting to desc), fails
with the invalid-order error for every other direction value, and has
the same construction-time validation shape as the Alphabetical
policy. -/
theorem newNewest_validation (o : String)
    (h1 : o ≠ "") (h2 : o ≠ NewestOrderAsc) (h3 : o ≠ NewestOrderDesc) :
    NewNewest o = .error (invalidOrderMessage o)
    ∧ NewNewest "" = .ok { order := NewestOrderDesc }
    ∧ NewNewest NewestOrderAsc = .ok { order := NewestOrderAsc }
    ∧ NewNewest NewestOrderDesc = .ok { order := NewestOrderDesc }
    ∧ (∀ o2 : String, (NewNewest o2).isOk = (NewAlphabetical o2).isOk) := by
  refine ⟨?_, by decide, by decide, by decide, ?_⟩
  · unfold NewNewest
    rw [if_neg h1, if_neg]
    rintro (hc | hc)
    · exact h2 hc
    · exact h3 hc
  · intro o2
    unfold NewNewest NewAlphabetical
    by_cases ha : o2 = ""
    · simp [ha, Except.isOk, Except.toBool]
    · rw [if_neg ha, if_neg ha]
      by_cases hb : o2 = "ASC"
      · simp [NewestOrderAsc, NewestOrderDesc, AlphabeticalOrderAsc, AlphabeticalOrderDesc, hb,
          Except.isOk, Except.toBool]
      · by_cases hc : o2 = "DESC"
        · simp [NewestOrderAsc, NewestOrderDesc, AlphabeticalOrderAsc, AlphabeticalOrderDesc, hc,
            Except.isOk, Except.toBool]
        · simp [NewestOrderAsc, NewestOrderDesc, AlphabeticalOrderAsc, AlphabeticalOrderDesc,
            hb, hc, Except.isOk, Except.toBool]

/-- Witness for C8 at the concrete invalid direction value
`"invalid"`. -/
theorem newNewest_validation_witness :
    NewNewest "invalid" = .error (invalidOrderMessage "invalid") :=
  (newNewest_validation "invalid" (by decide) (by decide) (by decide)).1

/-- C9: `Newest.Latest` is not effect-free on its argument: on every
successful call the returned slice contents are a permutation of the
input ordered by created time (ascending under ASC, descending
otherwise), and there is an input that the call does not leave
unchanged. -/
theorem newest_latest_sorts_slice (p : Newest) (ts : List Tag) (t : Tag) (s : List Tag)
    (h : p.Latest ts = .ok (t, s)) :
    s.Perm ts
    ∧ (p.order = NewestOrderAsc →
        List.Pairwise (fun a b : Tag => a.created ≤ b.created) s)
    ∧ (p.order ≠ NewestOrderAsc →
        List.Pairwise (fun a b : Tag => b.created ≤ a.created) s)
    ∧ (∃ (q : Newest) (us : List Tag) (u : Tag) (w : List Tag),
        q.Latest us = .ok (u, w) ∧ w ≠ us) := by
  obtain ⟨hs, _, _⟩ := newest_latest_ok p ts t s h
  subst hs
  refine ⟨sortSlice_perm p ts, ?_, ?_, ?_⟩
  · intro hasc
    exact sortSlice_sorted_asc p ts hasc
  · intro hdesc
    exact sortSlice_sorted_desc p ts hdesc
  · refine ⟨{ order := NewestOrderDesc },
      [{ name := "a", created := 1 }, { name := "b", created := 2 }],
      { name := "b", created := 2 },
      [{ name := "b", created := 2 }, { name := "a", created := 1 }], ?_, by decide⟩
    simp [Newest.Latest, Newest.sortSlice, NewestOrderAsc, NewestOrderDesc,
      List.mergeSort, byCreatedGE]

/-- Witness for C9: a concrete descending call permutes the caller's
slice. -/
theorem newest_latest_sorts_slice_witness :
    ([({ name := "b", created := 2 } : Tag), { name := "a", created := 1 }]).Perm
      [{ name := "a", created := 1 }, { name := "b", created := 2 }] ∧
    [({ name := "b", created := 2 } : Tag), { name := "a", created := 1 }] ≠
      [{ name := "a", created := 1 }, { name := "b", created := 2 }] :=
  have h : Newest.Latest { order := NewestOrderDesc }
      [{ name := "a", created := 1 }, { name := "b", created := 2 }] =
      .ok ({ name := "b", created := 2 },
        [{ name := "b", created := 2 }, { name := "a", created := 1 }]) := by
    simp [Newest.Latest, Newest.sortSlice, NewestOrderAsc, NewestOrderDesc,
      List.mergeSort, byCreatedGE]
  ⟨(newest_latest_sorts_slice _ _ _ _ h).1, by decide⟩

/-- C10: `composeImagePolicyReadyMessage` produces the updated-from
message exactly when the previous tag is non-empty and differs from the
latest tag, and the resolved-to message otherwise; the two messages are
always distinct. -/
theorem composeImagePolicyReadyMessage_spec (previousTag latestTag image : String) :
    (previousTag ≠ "" ∧ previousTag ≠ latestTag →
      composeImagePolicyReadyMessage previousTag latestTag image =
        "Latest image tag for '" ++ image ++ "' updated from " ++ previousTag
          ++ " to " ++ latestTag)
    ∧ (previousTag = "" ∨ previousTag = latestTag →
      composeImagePolicyReadyMessage previousTag latestTag image =
        "Latest image tag for '" ++ image ++ "' resolved to " ++ latestTag)
    ∧ "Latest image tag for '" ++ image ++ "' updated from " ++ previousTag
        ++ " to " ++ latestTag ≠
      "Latest image tag for '" ++ image ++ "' resolved to " ++ latestTag := by
  refine ⟨?_, ?_, ?_⟩
  · intro h
    unfold composeImagePolicyReadyMessage
    rw [if_pos h]
  · intro h
    unfold composeImagePolicyReadyMessage
    rw [if_neg]
    rcases h with h | h <;> simp [h]
  · intro hc
    have hlen := congrArg String.length hc
    simp only [String.length_append] at hlen
    have e1 : ("' updated from " : String).length = 15 := rfl
    have e2 : (" to " : String).length = 4 := rfl
    have e3 : ("' resolved to " : String).length = 14 := rfl
    rw [e1, e2, e3] at hlen
    omega

/-- Witness for C10 at the concrete test inputs. -/
theorem composeImagePolicyReadyMessage_spec_witness :
    composeImagePolicyReadyMessage "1.0.0" "1.1.0" "foo/bar" =
      "Latest image tag for 'foo/bar' updated from 1.0.0 to 1.1.0" ∧
    composeImagePolicyReadyMessage "" "1.0.0" "foo/bar" =
      "Latest image tag for 'foo/bar' resolved to 1.0.0" :=
  ⟨((composeImagePolicyReadyMessage_spec "1.0.0" "1.1.0" "foo/bar").1
      ⟨by decide, by decide⟩).trans (by decide),
   ((composeImagePolicyReadyMessage_spec "" "1.0.0" "foo/bar").2.1
      (Or.inl rfl)).trans (by decide)⟩

/-- C1: whenever the newly resolved (name, tag) pair differs from the
previous reference, the digest is reset to empty before the reflection
mode is applied (advancing from the previous reference equals advancing
from the previous reference with an emptied digest); consequently under
IfNotPresent a tag change causes a fresh digest fetch and the previous
tag's digest is never carried over. -/
theorem advanceRef_tag_change (name tag : String) (previous : ImageRef)
    (fetch : Except String String)
    (h : ¬(name = previous.name ∧ tag = previous.tag)) :
    (∀ mode, advanceRef name tag previous mode fetch =
      advanceRef name tag { name := name, tag := tag, digest := "" } mode fetch)
    ∧ advanceRef name tag previous .IfNotPresent fetch =
        fetch.map (fun d => { name := name, tag := tag, digest := d })
    ∧ (∀ d, fetch = .ok d →
        advanceRef name tag previous .IfNotPresent fetch =
          .ok { name := name, tag := tag, digest := d }) := by
  refine ⟨?_, ?_, ?_⟩
  · intro mode
    cases mode <;> simp [advanceRef, h]
  · simp [advanceRef, h]
  · intro d hd
    subst hd
    simp [advanceRef, h, Except.map]

/-- Witness for C1: a tag change from 1.0 to 2.0 under IfNotPresent
fetches a fresh digest instead of keeping the old one. -/
theorem advanceRef_tag_change_witness :
    advanceRef "img" "2.0" { name := "img", tag := "1.0", digest := "sha:old" }
      .IfNotPresent (.ok "sha:new") = .ok { name := "img", tag := "2.0", digest := "sha:new" } :=
  (advanceRef_tag_change "img" "2.0" { name := "img", tag := "1.0", digest := "sha:old" }
    (.ok "sha:new") (by decide)).2.2 "sha:new" rfl

/-- C2: when the resolved tag equals the previous reference's tag, mode
Never yields an empty digest, mode Always overwrites the digest with the
freshly fetched value, and mode IfNotPresent keeps a non-empty previous
digest unchanged (for every fetch outcome) and fetches exactly when the
previous digest is empty. -/
theorem advanceRef_same_tag (name tag : String) (previous : ImageRef)
    (fetch : Except String String)
    (h : name = previous.name ∧ tag = previous.tag) :
    advanceRef name tag previous .Never fetch =
      .ok { name := name, tag := tag, digest := "" }
    ∧ advanceRef name tag previous .Always fetch =
        fetch.map (fun d => { name := name, tag := tag, digest := d })
    ∧ (previous.digest ≠ "" →
        advanceRef name tag previous .IfNotPresent fetch = .ok previous)
    ∧ (previous.digest = "" →
        advanceRef name tag previous .IfNotPresent fetch =
          fetch.map (fun d => { name := name, tag := tag, digest := d })) := by
  refine ⟨by simp [advanceRef], by simp [advanceRef], ?_, ?_⟩
  · intro hd
    simp [advanceRef, h, hd]
  · intro hd
    simp [advanceRef, h, hd]

/-- Witness for C2: with an unchanged tag, IfNotPresent keeps the
existing digest even though the fetch would return a different value,
while Always overwrites it. -/
theorem advanceRef_same_tag_witness :
    advanceRef "img" "1.0" { name := "img", tag := "1.0", digest := "sha:a" }
      .IfNotPresent (.ok "sha:b") = .ok { name := "img", tag := "1.0", digest := "sha:a" }
    ∧ advanceRef "img" "1.0" { name := "img", tag := "1.0", digest := "sha:a" }
      .Always (.ok "sha:b") = .ok { name := "img", tag := "1.0", digest := "sha:b" } :=
  ⟨(advanceRef_same_tag "img" "1.0" { name := "img", tag := "1.0", digest := "sha:a" }
      (.ok "sha:b") ⟨rfl, rfl⟩).2.2.1 (by decide),
   ((advanceRef_same_tag "img" "1.0" { name := "img", tag := "1.0", digest := "sha:a" }
      (.ok "sha:b") ⟨rfl, rfl⟩).2.1).trans rfl⟩

/-- C3: the SemVer policy tolerates a leading v on either the range or
the tag names: range 1.0.x over the plain tags returns 1.0.1, over the
v-prefixed tags returns v1.0.1, and range v1.0.x behaves the same on
both tag sets — in each case the highest version satisfying the range
wins. -/
theorem semver_v_prefix_tolerance :
    semverLatest "1.0.x" semverTagsPlain = .ok { name := "1.0.1" }
    ∧ semverLatest "1.0.x" semverTagsV = .ok { name := "v1.0.1" }
    ∧ semverLatest "v1.0.x" semverTagsV = .ok { name := "v1.0.1" }
    ∧ semverLatest "v1.0.x" semverTagsPlain = .ok { name := "1.0.1" } :=
  ⟨by decide, by decide, by decide, by decide⟩

/-- C5: if any tag name in the input fails to parse as a number, the
whole Numerical evaluation fails with the invalid-numeric-value error,
regardless of direction and of the other tags being valid numbers. -/
theorem numerical_latest_fails_on_unparsable (p : Numerical) (ts : List Tag)
    (h : ∃ t ∈ ts, parseNumber t.name = none) :
    Numerical.Latest p ts = .error "invalid numerical value" := by
  obtain ⟨t, hm, hp⟩ := h
  cases ts with
  | nil => cases hm
  | cons x xs =>
    have hnone := parsePairs_none_of_mem (x :: xs) t hm hp
    unfold Numerical.Latest
    simp only [hnone]

/-- Witness for C5 at the concrete tag set `{0, 1a, b}`, in which `0`
is a valid number yet the evaluation still fails. -/
theorem numerical_latest_fails_on_unparsable_witness :
    Numerical.Latest { order := NumericalOrderAsc }
      [{ name := "0" }, { name := "1a" }, { name := "b" }] = .error "invalid numerical value"
    ∧ parseNumber "0" = some { mant := 0, exp10 := 0 } :=
  ⟨numerical_latest_fails_on_unparsable { order := NumericalOrderAsc }
      [{ name := "0" }, { name := "1a" }, { name := "b" }]
      ⟨{ name := "1a" }, by decide, by decide⟩,
   by decide⟩

/-- C6 counterexample: with an invalid (zero-arm) policy choice and an
empty tag list, `applyPolicy` fails with the invalid-policy error, not
with the no-tags error — policy construction precedes the emptiness
check. -/
theorem applyPolicy_empty_tags_counterexample :
    applyPolicy {} none [] ≠ .error "no tags in database"
    ∧ applyPolicy {} none [] = .error "invalid policy: given image policy choice is invalid" :=
  ⟨by decide, by decide⟩

/-- C6 (amended): for every policy choice that constructs successfully,
resolving an empty tag list fails with the no-tags error (for any filter
configuration); and for every policy choice, valid or not, an empty tag
list never produces a success. -/
theorem applyPolicy_empty_tags (choice : ImagePolicyChoice)
    (ft : Option (Option CompiledRegex × String)) :
    ((PolicerFromSpec choice).isOk = true →
      applyPolicy choice ft [] = .error "no tags in database")
    ∧ (∀ t, applyPolicy choice ft [] ≠ .ok t) := by
  constructor
  · intro h
    unfold applyPolicy
    cases hp : PolicerFromSpec choice with
    | error e => rw [hp] at h; simp [Except.isOk, Except.toBool] at h
    | ok policer => simp only [hp]; rfl
  · intro t hc
    unfold applyPolicy at hc
    cases hp : PolicerFromSpec choice with
    | error e => rw [hp] at hc; exact Except.noConfusion hc
    | ok policer => rw [hp] at hc; exact Except.noConfusion hc

/-- Witness for C6 (amended) at a concrete valid SemVer choice. -/
theorem applyPolicy_empty_tags_witness :
    applyPolicy { semver := some "1.0.x" } none [] = .error "no tags in database" :=
  (applyPolicy_empty_tags { semver := some "1.0.x" } none).1 (by decide)

/-- C4: for every tag list and ordering policy choice, a successful
`applyPolicy` returns a tag present in the input; when a tag filter is
configured, the winner is evaluated over the extracted names and mapped
back, via the filter's reverse lookup, to an original tag that matched
the pattern. -/
theorem applyPolicy_returns_input_tag (choice : ImagePolicyChoice)
    (ft : Option (Option CompiledRegex × String)) (tags : List Tag) (t : Tag)
    (h : applyPolicy choice ft tags = .ok t) :
    t ∈ tags ∧ ∀ c ex, ft = some (some c, ex) → c.isMatch t.name = true := by
  unfold applyPolicy at h
  split at h
  · exact Except.noConfusion h
  · rename_i policer hpol
    split at h
    · exact Except.noConfusion h
    · split at h
      · rename_i compiled extract
        split at h
        · exact Except.noConfusion h
        · rename_i filter0 hreg
          cases hl : Policer.Latest policer (filter0.Apply tags).Items with
          | error e => simp only [hl] at h; exact Except.noConfusion h
          | ok latest =>
            simp only [hl, Except.ok.injEq] at h
            have hitems := policer_latest_mem policer _ latest hl
            have hg := getOriginal_spec filter0 tags latest hitems
            rw [h] at hg
            refine ⟨hg.1, ?_⟩
            intro c2 ex2 hft
            simp only [Option.some.injEq, Prod.mk.injEq] at hft
            obtain ⟨hc2, _⟩ := hft
            subst hc2
            unfold NewRegexFilter at hreg
            simp only [Except.ok.injEq] at hreg
            rw [← hreg] at hg
            exact hg.2
      · refine ⟨policer_latest_mem policer tags t h, ?_⟩
        intro c ex hft
        exact Option.noConfusion hft

/-- Witness for C4: the filter round-trip example with pattern
matching `ver` followed by digits and extraction of the digits, under
the Numerical policy: the winner maps back to an original `ver` tag
(which matches the pattern, so it is never `rel1`). -/
theorem applyPolicy_returns_input_tag_witness :
    applyPolicy verChoice (some (some verPattern, "$1")) verTags = .ok { name := "ver3" }
    ∧ ({ name := "ver3" } : Tag) ∈ verTags
    ∧ verPattern.isMatch "ver3" = true
    ∧ verPattern.isMatch "rel1" = false :=
  have h : applyPolicy verChoice (some (some verPattern, "$1")) verTags =
      .ok { name := "ver3" } := by decide
  have hx := applyPolicy_returns_input_tag verChoice (some (some verPattern, "$1"))
    verTags { name := "ver3" } h
  ⟨h, hx.1, hx.2 verPattern "$1" rfl, by decide⟩
